import Mathlib

/-!
Shallow embedding of the ring-buffer ("fifo") core of
`src/uart-buffered/src/uart_buffered.h`.

The C data model is `struct fifo { u16_t write; u16_t read; u8_t buf[]; }`
together with `struct fifo_handle { struct fifo *fifo; size_t capacity_mask; ... }`
(the `device` and `signal` pointers of the handle are opaque references to
external kernel objects; none of the fifo operations modelled here read or
write them, so they are omitted from the state).

Machine-integer conventions used throughout (Zephyr 32-bit targets):
`u16_t` values live in `[0, 2^16)`, `int` is 32-bit, `size_t` is 32-bit,
and all arithmetic that C performs in `size_t` is taken modulo `2^32`.
In particular `fifo_used` computes `write - read` after the *integer
promotion* of both `u16_t` operands to `int`: the subtraction is exact in
`int` and the (possibly negative) result is then converted to `size_t`,
i.e. reduced modulo `2^32` — not modulo `2^16`.
-/

/-- Modulus of the `u16_t` type: 2^16. -/
def U16M : Nat := 65536

/-- Modulus of the `size_t` (and unsigned 32-bit `int`) type: 2^32. -/
def SZM : Nat := 4294967296

/-- Embeds `struct fifo`: two free-running `u16_t` counters plus byte storage.
`buf` is total over `Nat`; the operations only ever address it at
`index &&& capacity_mask`, mirroring `buf[i & mask]` in the source. -/
structure Fifo where
  write : Nat
  read : Nat
  buf : Nat → Nat

/-- Embeds `struct fifo_handle`: the fifo storage plus `capacity_mask`
(`capacity - 1`, a `size_t`). The `device`/`signal` pointers are omitted:
no modelled operation touches them. -/
structure FifoHandle where
  fifo : Fifo
  capacity_mask : Nat

/-- Well-formed C state: the `u16_t` fields and the `size_t` mask hold
representable values. -/
def FifoHandle.WF (h : FifoHandle) : Prop :=
  h.fifo.write < U16M ∧ h.fifo.read < U16M ∧ h.capacity_mask < SZM

instance (h : FifoHandle) : Decidable h.WF := by
  unfold FifoHandle.WF; infer_instance

/-- Embeds `fifo_capacity`: `return fifo->capacity_mask + 1;` in `size_t`. -/
def fifo_capacity (h : FifoHandle) : Nat := (h.capacity_mask + 1) % SZM

/-- Embeds `fifo_used`: `return fifo->fifo->write - fifo->fifo->read;`.
Both `u16_t` operands are promoted to (32-bit) `int`, subtracted exactly,
and the result is converted to `size_t`, i.e. reduced mod `2^32`.
For `read < SZM` (always true of a C state) `(SZM + write - read) % SZM`
is exactly that value. -/
def fifo_used (h : FifoHandle) : Nat := (SZM + h.fifo.write - h.fifo.read) % SZM

/-- Embeds `fifo_full`: `return fifo_used(fifo) >= fifo_capacity(fifo);`. -/
def fifo_full (h : FifoHandle) : Bool := decide (fifo_capacity h ≤ fifo_used h)

/-- Embeds `fifo_empty`: `return fifo_used(fifo) == 0;`. -/
def fifo_empty (h : FifoHandle) : Bool := fifo_used h == 0

/-- Embeds the mutation of `fifo_push`:
`fifo->fifo->buf[fifo->fifo->write++ & fifo->capacity_mask] = val;`.
The store uses the *old* write index (post-increment); the `u16_t`
increment wraps mod `2^16`; the stored value is the `u8_t` conversion
of `val`, i.e. `val % 256`. -/
def fifo_push (h : FifoHandle) (val : Nat) : FifoHandle :=
  { h with fifo :=
    { write := (h.fifo.write + 1) % U16M
      read := h.fifo.read
      buf := fun i =>
        if i = h.fifo.write &&& h.capacity_mask then val % 256 else h.fifo.buf i } }

/-- Embeds the value read by `fifo_peek`:
`return fifo->fifo->buf[fifo->fifo->read & fifo->capacity_mask];`. -/
def fifo_peek (h : FifoHandle) : Nat :=
  h.fifo.buf (h.fifo.read &&& h.capacity_mask)

/-- `fifo_peek` with its (unchanged) state made explicit: the C body of
`fifo_peek` performs a single load and no store, so the state component
is the input state itself. -/
def fifo_peek_st (h : FifoHandle) : Nat × FifoHandle :=
  (h.fifo.buf (h.fifo.read &&& h.capacity_mask), h)

/-- Embeds `fifo_pop`:
`return fifo->fifo->buf[fifo->fifo->read++ & fifo->capacity_mask];`.
Returns the loaded byte (at the *old* read index) and the state with
`read` incremented mod `2^16`; `write` and the storage are untouched. -/
def fifo_pop (h : FifoHandle) : Nat × FifoHandle :=
  (h.fifo.buf (h.fifo.read &&& h.capacity_mask),
   { h with fifo := { h.fifo with read := (h.fifo.read + 1) % U16M } })

/-- Embeds `fifo_push` together with its `__ASSERT(!fifo_full(fifo), ...)`
guard: `none` is the assertion-failure (fatal) branch, `some` the normal
return. The C function returns `void`; no error value reaches the caller. -/
def fifo_push_checked (h : FifoHandle) (val : Nat) : Option FifoHandle :=
  if fifo_full h then none else some (fifo_push h val)

/-- Embeds `fifo_peek` together with its `__ASSERT(!fifo_empty(fifo), ...)`
guard. -/
def fifo_peek_checked (h : FifoHandle) : Option Nat :=
  if fifo_empty h then none else some (fifo_peek h)

/-- Embeds `fifo_pop` together with its `__ASSERT(!fifo_empty(fifo), ...)`
guard. -/
def fifo_pop_checked (h : FifoHandle) : Option (Nat × FifoHandle) :=
  if fifo_empty h then none else some (fifo_pop h)

/-- Embeds the build-time check of `FIFO_DEFINE`:
`BUILD_ASSERT_MSG(((size) & ((size)-1)) == 0, "fifo size must be a power of 2")`.
`(size)-1` is computed in (32-bit) integer arithmetic, so for `size = 0`
it is the all-ones two's-complement pattern `2^32 - 1`. -/
def fifo_size_ok (size : Nat) : Bool :=
  (size &&& ((size + SZM - 1) % SZM)) == 0

/-- Embeds the `capacity_mask` field set up by `FIFO_INITIALIZER`:
`FIFO_CAPACITY(name) - 1` computed in `size_t`, where `FIFO_CAPACITY`
is the declared byte size of the storage array. -/
def capacity_mask_of (size : Nat) : Nat := (size + SZM - 1) % SZM

/-- A handle as produced by `FIFO_DEFINE`/`FIFO_INITIALIZER` over zeroed
static storage of the given size: counters start at 0, storage zeroed,
`capacity_mask = size - 1` (in `size_t`). -/
def handleOf (size : Nat) : FifoHandle :=
  ⟨⟨0, 0, fun _ => 0⟩, capacity_mask_of size⟩

/-- An empty fifo with an explicitly given `capacity_mask`. -/
def emptyFifo (mask : Nat) : FifoHandle := ⟨⟨0, 0, fun _ => 0⟩, mask⟩

/-- One operation of the single-writer/single-reader discipline. -/
inductive FifoOp where
  | push (val : Nat)
  | pop
deriving DecidableEq

/-- Applies one operation to a fifo state (discarding pop's return value). -/
def fifo_step (h : FifoHandle) : FifoOp → FifoHandle
  | .push v => fifo_push h v
  | .pop => (fifo_pop h).2

/-- Runs a sequence of operations. -/
def fifo_run (h : FifoHandle) : List FifoOp → FifoHandle
  | [] => h
  | op :: ops => fifo_run (fifo_step h op) ops

/-- The discipline of the spec: every `push` is performed only when
`fifo_full` is `false`, every `pop` only when `fifo_empty` is `false`. -/
def fifo_legal (h : FifoHandle) : List FifoOp → Bool
  | [] => true
  | .push v :: ops => !fifo_full h && fifo_legal (fifo_push h v) ops
  | .pop :: ops => !fifo_empty h && fifo_legal ((fifo_pop h).2) ops

/-- The bytes handed to `fifo_push`, in order. -/
def fifo_inputs : List FifoOp → List Nat
  | [] => []
  | .push v :: ops => v :: fifo_inputs ops
  | .pop :: ops => fifo_inputs ops

/-- The bytes returned by `fifo_pop`, in order. -/
def fifo_outputs (h : FifoHandle) : List FifoOp → List Nat
  | [] => []
  | .push v :: ops => fifo_outputs (fifo_push h v) ops
  | .pop :: ops => (fifo_pop h).1 :: fifo_outputs ((fifo_pop h).2) ops

/-- Number of `pop` operations in a sequence. -/
def popCount : List FifoOp → Nat
  | [] => 0
  | .push _ :: ops => popCount ops
  | .pop :: ops => popCount ops + 1

/-- Abstraction invariant tying a concrete fifo state to its history:
`vs` is the list of all bytes pushed so far, `q` the number of pops so far,
for a power-of-two capacity `2^k` with `k < 16`. The counters are the
histories' lengths mod `2^16`, at most `2^k` bytes are outstanding, and
every outstanding byte sits in the storage slot addressed by its position
mod the capacity. -/
def fifoInv (k : Nat) (vs : List Nat) (q : Nat) (h : FifoHandle) : Prop :=
  h.capacity_mask = 2 ^ k - 1 ∧
  h.fifo.write = vs.length % U16M ∧
  h.fifo.read = q % U16M ∧
  q ≤ vs.length ∧
  vs.length - q ≤ 2 ^ k ∧
  ∀ i, q ≤ i → i < vs.length → h.fifo.buf (i % 2 ^ k) = vs.getD i 0 % 256


/-- Only-zero-pushes operation sequence (`n` calls of `fifo_push(fifo, 0)`). -/
def pushZerosOps (n : Nat) : List FifoOp := List.replicate n (FifoOp.push 0)

/-- `n` iterations of push-one-byte-then-pop-it: a producer/consumer pair
that keeps the fifo nearly empty while the `u16_t` counters advance. -/
def cyclesOps : Nat → List FifoOp
  | 0 => []
  | n + 1 => FifoOp.push 0 :: FifoOp.pop :: cyclesOps n

/-- Discipline-respecting trace that drives a capacity-16 fifo to the
wrapped counter state `write = 0, read = 65535` with one byte stored. -/
def wrapTrace : List FifoOp := cyclesOps 65535 ++ [FifoOp.push 7]

/-- Trace at capacity `2^16`: one byte `1`, then `2^16` zero bytes (all
accepted by the full check), then one pop. -/
def overwriteTrace : List FifoOp :=
  FifoOp.push 1 :: (pushZerosOps U16M ++ [FifoOp.pop])

theorem fifo_run_append (h : FifoHandle) (l₁ l₂ : List FifoOp) :
    fifo_run h (l₁ ++ l₂) = fifo_run (fifo_run h l₁) l₂ := by
  induction l₁ generalizing h with
  | nil => rfl
  | cons op ops ih => simp [fifo_run, ih]

theorem fifo_legal_append (h : FifoHandle) (l₁ l₂ : List FifoOp) :
    fifo_legal h (l₁ ++ l₂) = (fifo_legal h l₁ && fifo_legal (fifo_run h l₁) l₂) := by
  induction l₁ generalizing h with
  | nil => simp [fifo_legal, fifo_run]
  | cons op ops ih =>
    cases op <;> simp [fifo_legal, fifo_run, fifo_step, ih, Bool.and_assoc]

theorem fifo_outputs_append (h : FifoHandle) (l₁ l₂ : List FifoOp) :
    fifo_outputs h (l₁ ++ l₂) = fifo_outputs h l₁ ++ fifo_outputs (fifo_run h l₁) l₂ := by
  induction l₁ generalizing h with
  | nil => rfl
  | cons op ops ih => cases op <;> simp [fifo_outputs, fifo_run, fifo_step, ih]

theorem fifo_inputs_append (l₁ l₂ : List FifoOp) :
    fifo_inputs (l₁ ++ l₂) = fifo_inputs l₁ ++ fifo_inputs l₂ := by
  induction l₁ with
  | nil => rfl
  | cons op ops ih => cases op <;> simp [fifo_inputs, ih]

theorem popCount_append (l₁ l₂ : List FifoOp) :
    popCount (l₁ ++ l₂) = popCount l₁ + popCount l₂ := by
  induction l₁ with
  | nil => simp [popCount]
  | cons op ops ih => cases op <;> simp [popCount, ih] <;> omega

theorem land_mask (n k : Nat) : n &&& (2 ^ k - 1) = n % 2 ^ k :=
  Nat.and_pow_two_sub_one_eq_mod n k

theorem U16M_pos : 0 < U16M := by decide

theorem SZM_pos : 0 < SZM := by decide

/-- The `size_t` value of the promoted subtraction `w - r` is zero exactly
when the two `u16_t` counters are equal. -/
theorem fifo_used_eq_zero_iff (h : FifoHandle) (hw : h.fifo.write < U16M)
    (hr : h.fifo.read < U16M) : (fifo_used h = 0 ↔ h.fifo.write = h.fifo.read) := by
  have hm : U16M < SZM := by decide
  unfold fifo_used
  rcases Nat.lt_or_ge h.fifo.write h.fifo.read with hlt | hle
  · have hb : SZM + h.fifo.write - h.fifo.read < SZM := by omega
    have hb2 : 0 < SZM + h.fifo.write - h.fifo.read := by omega
    rw [Nat.mod_eq_of_lt hb]
    omega
  · have h1 : SZM + h.fifo.write - h.fifo.read = SZM + (h.fifo.write - h.fifo.read) := by
      omega
    rw [h1, Nat.add_mod_left, Nat.mod_eq_of_lt (by omega : h.fifo.write - h.fifo.read < SZM)]
    omega

/-- When the counters satisfy `read ≤ write` (no aliasing past a wrap),
`fifo_used` is the plain difference. -/
theorem fifo_used_of_le (h : FifoHandle) (hw : h.fifo.write < U16M)
    (hle : h.fifo.read ≤ h.fifo.write) :
    fifo_used h = h.fifo.write - h.fifo.read := by
  have hm : U16M < SZM := by decide
  unfold fifo_used
  have h1 : SZM + h.fifo.write - h.fifo.read = SZM + (h.fifo.write - h.fifo.read) := by omega
  rw [h1, Nat.add_mod_left]
  exact Nat.mod_eq_of_lt (by omega)

/-- When the write counter has wrapped past the read counter (`write < read`),
`fifo_used` is the huge value `2^32 - (read - write)`. -/
theorem fifo_used_of_lt (h : FifoHandle) (hr : h.fifo.read < U16M)
    (hlt : h.fifo.write < h.fifo.read) :
    fifo_used h = SZM - (h.fifo.read - h.fifo.write) := by
  have hm : U16M < SZM := by decide
  unfold fifo_used
  have hb : SZM + h.fifo.write - h.fifo.read < SZM := by omega
  rw [Nat.mod_eq_of_lt hb]
  omega

theorem two_pow_lt_U16M {k : Nat} (hk : k < 16) : 2 ^ k < U16M := by
  have h1 : 2 ^ k < 2 ^ 16 := Nat.pow_lt_pow_right (by norm_num) hk
  have h2 : U16M = 2 ^ 16 := by decide
  omega

theorem fifoInv_capacity {k : Nat} {vs : List Nat} {q : Nat} {h : FifoHandle}
    (hk : k < 16) (hinv : fifoInv k vs q h) : fifo_capacity h = 2 ^ k := by
  have hck : 2 ^ k < U16M := two_pow_lt_U16M hk
  have hMS : U16M < SZM := by decide
  have hpos : 0 < 2 ^ k := Nat.pos_pow_of_pos k (by norm_num)
  unfold fifo_capacity
  rw [hinv.1]
  have he : 2 ^ k - 1 + 1 = 2 ^ k := by omega
  rw [he]
  exact Nat.mod_eq_of_lt (by omega)

/-- The write counter equals `(read + outstanding) % 2^16` under the invariant. -/
theorem fifoInv_write_eq {k : Nat} {vs : List Nat} {q : Nat} {h : FifoHandle}
    (hk : k < 16) (hinv : fifoInv k vs q h) :
    h.fifo.write = (h.fifo.read + (vs.length - q)) % U16M := by
  obtain ⟨hmask, hw, hr, hqle, hout, hbuf⟩ := hinv
  have ht : vs.length = q + (vs.length - q) := by omega
  have hlt : vs.length - q < U16M := by
    have := two_pow_lt_U16M hk
    omega
  rw [hw, hr]
  conv_lhs => rw [ht]
  rw [Nat.add_mod q, Nat.mod_eq_of_lt hlt, Nat.add_mod (q % U16M), Nat.mod_mod_of_dvd,
    Nat.mod_eq_of_lt hlt]
  exact Dvd.intro 1 rfl

/-- Under the invariant a `false` result of `fifo_full` guarantees that
strictly fewer than `2^k` bytes are outstanding and the counters have not
wrapped past each other. (The converse fails: once the write counter wraps,
`fifo_full` is spuriously `true` until the read counter wraps as well.) -/
theorem fifo_full_false_outstanding {k : Nat} {vs : List Nat} {q : Nat} {h : FifoHandle}
    (hk : k < 16) (hinv : fifoInv k vs q h) (hfull : fifo_full h = false) :
    vs.length - q < 2 ^ k ∧ h.fifo.read ≤ h.fifo.write := by
  have hck : 2 ^ k < U16M := two_pow_lt_U16M hk
  have hMS : U16M < SZM := by decide
  have hcap : fifo_capacity h = 2 ^ k := fifoInv_capacity hk hinv
  have hweq : h.fifo.write = (h.fifo.read + (vs.length - q)) % U16M :=
    fifoInv_write_eq hk hinv
  obtain ⟨hmask, hw, hr, hqle, hout, hbuf⟩ := hinv
  have hwlt : h.fifo.write < U16M := by rw [hw]; exact Nat.mod_lt _ (by decide)
  have hrlt : h.fifo.read < U16M := by rw [hr]; exact Nat.mod_lt _ (by decide)
  have hnot : ¬ fifo_capacity h ≤ fifo_used h := by
    intro hc
    simp [fifo_full, hc] at hfull
  rcases Nat.lt_or_ge (h.fifo.read + (vs.length - q)) U16M with hsum | hsum
  · -- no wrap: write = read + outstanding
    have hwval : h.fifo.write = h.fifo.read + (vs.length - q) := by
      rw [hweq]; exact Nat.mod_eq_of_lt hsum
    have hused : fifo_used h = vs.length - q := by
      rw [fifo_used_of_le h hwlt (by omega), hwval]; omega
    rw [hcap, hused] at hnot
    exact ⟨by omega, by omega⟩
  · -- wrapped: write < read, fifo_used is huge, fifo_full must be true
    exfalso
    have hwval : h.fifo.write = h.fifo.read + (vs.length - q) - U16M := by
      rw [hweq, Nat.mod_eq_sub_mod hsum]
      exact Nat.mod_eq_of_lt (by omega)
    have hwr : h.fifo.write < h.fifo.read := by omega
    have hused := fifo_used_of_lt h hrlt hwr
    rw [hcap, hused] at hnot
    have hU : U16M = 65536 := rfl
    have hS : SZM = 4294967296 := rfl
    omega

/-- Under the invariant `fifo_empty` is `false` exactly when some pushed
byte is still outstanding. -/
theorem fifo_empty_false_iff {k : Nat} {vs : List Nat} {q : Nat} {h : FifoHandle}
    (hk : k < 16) (hinv : fifoInv k vs q h) :
    (fifo_empty h = false ↔ q < vs.length) := by
  have hck : 2 ^ k < U16M := two_pow_lt_U16M hk
  have hweq : h.fifo.write = (h.fifo.read + (vs.length - q)) % U16M :=
    fifoInv_write_eq hk hinv
  obtain ⟨hmask, hw, hr, hqle, hout, hbuf⟩ := hinv
  have hwlt : h.fifo.write < U16M := by rw [hw]; exact Nat.mod_lt _ (by decide)
  have hrlt : h.fifo.read < U16M := by rw [hr]; exact Nat.mod_lt _ (by decide)
  have hz := fifo_used_eq_zero_iff h hwlt hrlt
  have hempty : fifo_empty h = false ↔ ¬ fifo_used h = 0 := by
    simp [fifo_empty]
  rw [hempty, hz]
  constructor
  · intro hne
    by_contra hq
    have : vs.length - q = 0 := by omega
    rw [hweq, this, Nat.add_zero, Nat.mod_eq_of_lt hrlt] at hne
    exact hne rfl
  · intro hq heq
    have ht : 0 < vs.length - q := by omega
    rcases Nat.lt_or_ge (h.fifo.read + (vs.length - q)) U16M with hsum | hsum
    · rw [hweq, Nat.mod_eq_of_lt hsum] at heq
      omega
    · have : h.fifo.write = h.fifo.read + (vs.length - q) - U16M := by
        rw [hweq, Nat.mod_eq_sub_mod hsum]
        exact Nat.mod_eq_of_lt (by omega)
      omega

theorem mod_add_one_mod (a n : Nat) (hn : 1 < n) : (a % n + 1) % n = (a + 1) % n := by
  conv_rhs => rw [Nat.add_mod]
  rw [Nat.mod_eq_of_lt hn]

theorem getD_append_left (vs l2 : List Nat) (n : Nat) (h : n < vs.length) :
    (vs ++ l2).getD n 0 = vs.getD n 0 := by
  simp [List.getD_eq_getElem?_getD, List.getElem?_append, h]

theorem getD_append_length (vs : List Nat) (v : Nat) :
    (vs ++ [v]).getD vs.length 0 = v := by
  simp [List.getD_eq_getElem?_getD, List.getElem?_concat_length]

/-- A discipline-respecting `fifo_push` extends the history and preserves
the invariant. -/
theorem fifoInv_push {k : Nat} {vs : List Nat} {q : Nat} {h : FifoHandle} (v : Nat)
    (hk : k < 16) (hinv : fifoInv k vs q h) (hfull : fifo_full h = false) :
    fifoInv k (vs ++ [v]) q (fifo_push h v) := by
  have hout := (fifo_full_false_outstanding hk hinv hfull).1
  have hdvd : (2 : Nat) ^ k ∣ U16M := by
    have hU : U16M = 2 ^ 16 := by decide
    rw [hU]
    exact Nat.pow_dvd_pow 2 (Nat.le_of_lt hk)
  obtain ⟨hmask, hw, hr, hqle, hout2, hbuf⟩ := hinv
  refine ⟨hmask, ?_, hr, ?_, ?_, ?_⟩
  · show (h.fifo.write + 1) % U16M = (vs ++ [v]).length % U16M
    rw [hw, List.length_append, List.length_singleton]
    exact mod_add_one_mod vs.length U16M (by decide)
  · simpa using Nat.le_succ_of_le hqle
  · simp only [List.length_append, List.length_singleton]
    omega
  · intro i hqi hilt
    simp only [List.length_append, List.length_singleton] at hilt
    show (if i % 2 ^ k = h.fifo.write &&& h.capacity_mask then v % 256 else h.fifo.buf (i % 2 ^ k))
        = (vs ++ [v]).getD i 0 % 256
    have hidx : h.fifo.write &&& h.capacity_mask = vs.length % 2 ^ k := by
      rw [hmask, land_mask, hw, Nat.mod_mod_of_dvd _ hdvd]
    rcases Nat.lt_or_ge i vs.length with hlt | hge
    · -- an older outstanding byte: its slot is untouched
      have hne : i % 2 ^ k ≠ vs.length % 2 ^ k := by
        intro heq
        have hmod : i ≡ vs.length [MOD 2 ^ k] := heq
        have hdvd2 : 2 ^ k ∣ vs.length - i := (Nat.modEq_iff_dvd' (Nat.le_of_lt hlt)).mp hmod
        have hle2 : 2 ^ k ≤ vs.length - i := Nat.le_of_dvd (by omega) hdvd2
        omega
      rw [hidx, if_neg hne, hbuf i hqi hlt, getD_append_left vs [v] i hlt]
    · -- the newly pushed byte, stored at slot vs.length % 2^k
      have hieq : i = vs.length := by omega
      subst hieq
      rw [hidx, if_pos rfl, getD_append_length]

/-- A discipline-respecting `fifo_pop` returns the oldest outstanding byte
and preserves the invariant with one more pop recorded. -/
theorem fifoInv_pop {k : Nat} {vs : List Nat} {q : Nat} {h : FifoHandle}
    (hk : k < 16) (hinv : fifoInv k vs q h) (hne : fifo_empty h = false) :
    (fifo_pop h).1 = vs.getD q 0 % 256 ∧ fifoInv k vs (q + 1) ((fifo_pop h).2) := by
  have hq : q < vs.length := (fifo_empty_false_iff hk hinv).mp hne
  have hdvd : (2 : Nat) ^ k ∣ U16M := by
    have hU : U16M = 2 ^ 16 := by decide
    rw [hU]
    exact Nat.pow_dvd_pow 2 (Nat.le_of_lt hk)
  obtain ⟨hmask, hw, hr, hqle, hout, hbuf⟩ := hinv
  have hidx : h.fifo.read &&& h.capacity_mask = q % 2 ^ k := by
    rw [hmask, land_mask, hr, Nat.mod_mod_of_dvd _ hdvd]
  constructor
  · show h.fifo.buf (h.fifo.read &&& h.capacity_mask) = vs.getD q 0 % 256
    rw [hidx]
    exact hbuf q (Nat.le_refl q) hq
  · refine ⟨hmask, hw, ?_, by omega, by omega, ?_⟩
    · show (h.fifo.read + 1) % U16M = (q + 1) % U16M
      rw [hr]
      exact mod_add_one_mod q U16M (by decide)
    · intro i hqi hilt
      exact hbuf i (by omega) hilt

/-- Main refinement run lemma: along any discipline-respecting operation
sequence the invariant is maintained, and the popped bytes are exactly the
slice `[q, q + pops)` of the (byte-truncated) pushed history. -/
theorem fifoInv_run (ops : List FifoOp) {k : Nat} {vs : List Nat} {q : Nat}
    {h : FifoHandle} (hk : k < 16) (hinv : fifoInv k vs q h)
    (hleg : fifo_legal h ops = true) :
    fifoInv k (vs ++ fifo_inputs ops) (q + popCount ops) (fifo_run h ops) ∧
    fifo_outputs h ops =
      (((vs ++ fifo_inputs ops).map (fun v => v % 256)).drop q).take (popCount ops) := by
  induction ops generalizing vs q h with
  | nil =>
    simp [fifo_inputs, popCount, fifo_run, fifo_outputs]
    exact hinv
  | cons op rest ih =>
    cases op with
    | push v =>
      have hleg2 : fifo_full h = false ∧ fifo_legal (fifo_push h v) rest = true := by
        simpa [fifo_legal, Bool.and_eq_true, Bool.not_eq_true'] using hleg
      have hinv2 := fifoInv_push v hk hinv hleg2.1
      have := ih hinv2 hleg2.2
      constructor
      · have hres := this.1
        simpa [fifo_inputs, popCount, fifo_run, fifo_step, List.append_assoc] using hres
      · have hres := this.2
        simpa [fifo_outputs, fifo_inputs, popCount, fifo_run, fifo_step,
          List.append_assoc] using hres
    | pop =>
      have hleg2 : fifo_empty h = false ∧ fifo_legal ((fifo_pop h).2) rest = true := by
        simpa [fifo_legal, Bool.and_eq_true, Bool.not_eq_true'] using hleg
      obtain ⟨hval, hinv2⟩ := fifoInv_pop hk hinv hleg2.1
      have hq : q < vs.length := (fifo_empty_false_iff hk hinv).mp hleg2.1
      have := ih hinv2 hleg2.2
      constructor
      · have hres := this.1
        have harith : q + 1 + popCount rest = q + (popCount rest + 1) := by omega
        simpa [fifo_inputs, popCount, fifo_run, fifo_step, harith] using hres
      · -- outputs (pop :: rest) = value at position q, then the slice from q+1
        have hres := this.2
        simp only [fifo_outputs, fifo_run, fifo_step, popCount, fifo_inputs] at *
        rw [hval, hres]
        set X : List Nat := vs ++ fifo_inputs rest with hX
        have hqX : q < (X.map (fun v => v % 256)).length := by
          simp [hX]
          omega
        have hqX2 : q < X.length := by simpa using hqX
        rw [List.drop_eq_get_cons hqX, List.take_succ_cons]
        congr 1
        have h1 : (X.map (fun v => v % 256)).get ⟨q, hqX⟩ = X.getD q 0 % 256 := by
          simp [List.get_eq_getElem, List.getElem_map, List.getD_eq_getElem?_getD,
            List.getElem?_eq_getElem hqX2]
        rw [h1, hX, getD_append_left vs _ q hq]

theorem land_U16 (n : Nat) : n &&& (U16M - 1) = n % U16M := by
  have h16 : U16M = 2 ^ 16 := by decide
  rw [h16, land_mask]

/-- A push-only run over a capacity-`2^k` fifo (`k < 16`) whose read index
is 0 and which has room for all pushed bytes: every push finds the fifo
not full, and the indices advance without wrapping. -/
theorem pushList_state (k : Nat) (bs : List Nat) :
    ∀ h : FifoHandle, k < 16 → h.capacity_mask = 2 ^ k - 1 → h.fifo.read = 0 →
    h.fifo.write + bs.length ≤ 2 ^ k →
    fifo_legal h (bs.map FifoOp.push) = true ∧
    (fifo_run h (bs.map FifoOp.push)).fifo.write = h.fifo.write + bs.length ∧
    (fifo_run h (bs.map FifoOp.push)).fifo.read = 0 ∧
    (fifo_run h (bs.map FifoOp.push)).capacity_mask = 2 ^ k - 1 := by
  induction bs with
  | nil =>
    intro h hk hm hr hroom
    exact ⟨rfl, (Nat.add_zero _).symm, hr, hm⟩
  | cons b bs ih =>
    intro h hk hm hr hroom
    have hck : 2 ^ k < U16M := two_pow_lt_U16M hk
    have hMS : U16M < SZM := by decide
    have hwlt : h.fifo.write < 2 ^ k := by
      simp only [List.length_cons] at hroom
      omega
    have hcap : fifo_capacity h = 2 ^ k := by
      unfold fifo_capacity
      rw [hm]
      have hpos : 0 < 2 ^ k := Nat.pos_pow_of_pos k (by norm_num)
      have he : 2 ^ k - 1 + 1 = 2 ^ k := by omega
      rw [he]
      exact Nat.mod_eq_of_lt (by omega)
    have hused : fifo_used h = h.fifo.write := by
      rw [fifo_used_of_le h (by omega) (by omega), hr]
      omega
    have hfull : fifo_full h = false := by
      simp only [fifo_full, hcap, hused, decide_eq_false_iff_not]
      omega
    have hm2 : (fifo_push h b).capacity_mask = 2 ^ k - 1 := by
      simp [fifo_push, hm]
    have hr2 : (fifo_push h b).fifo.read = 0 := by
      simp [fifo_push, hr]
    have hw2 : (fifo_push h b).fifo.write = h.fifo.write + 1 := by
      simp only [fifo_push]
      exact Nat.mod_eq_of_lt (by omega)
    have hroom2 : (fifo_push h b).fifo.write + bs.length ≤ 2 ^ k := by
      rw [hw2]
      simp only [List.length_cons] at hroom
      omega
    obtain ⟨hleg, hwf, hrf, hmf⟩ := ih (fifo_push h b) hk hm2 hr2 hroom2
    refine ⟨?_, ?_, hrf, hmf⟩
    · simp [fifo_legal, hfull, hleg]
    · simp only [List.map_cons, fifo_run, fifo_step]
      rw [hwf, hw2, List.length_cons]
      omega

/-- Zero-push runs over the (degenerate) capacity-`2^16` fifo: with the
read index at 0 the `size_t` used value equals the write index, which is
always below the capacity `2^16`, so `fifo_full` never fires and the write
index just advances mod `2^16` — no matter how many bytes are pushed. -/
theorem pushZeros_state (n : Nat) :
    ∀ h : FifoHandle, h.capacity_mask = U16M - 1 → h.fifo.read = 0 →
    h.fifo.write < U16M →
    fifo_legal h (pushZerosOps n) = true ∧
    (fifo_run h (pushZerosOps n)).fifo.write = (h.fifo.write + n) % U16M ∧
    (fifo_run h (pushZerosOps n)).fifo.read = 0 ∧
    (fifo_run h (pushZerosOps n)).capacity_mask = U16M - 1 := by
  induction n with
  | zero =>
    intro h hm hr hw
    refine ⟨rfl, ?_, hr, hm⟩
    show h.fifo.write = (h.fifo.write + 0) % U16M
    rw [Nat.add_zero, Nat.mod_eq_of_lt hw]
  | succ n ih =>
    intro h hm hr hw
    have hMS : U16M < SZM := by decide
    have hU : U16M = 65536 := rfl
    have hcap : fifo_capacity h = U16M := by
      unfold fifo_capacity
      rw [hm]
      have he : U16M - 1 + 1 = U16M := by omega
      rw [he]
      exact Nat.mod_eq_of_lt (by omega)
    have hused : fifo_used h = h.fifo.write := by
      rw [fifo_used_of_le h hw (by omega), hr]
      omega
    have hfull : fifo_full h = false := by
      simp only [fifo_full, hcap, hused, decide_eq_false_iff_not]
      omega
    have hm2 : (fifo_push h 0).capacity_mask = U16M - 1 := by
      simp [fifo_push, hm]
    have hr2 : (fifo_push h 0).fifo.read = 0 := by
      simp [fifo_push, hr]
    have hw2 : (fifo_push h 0).fifo.write = (h.fifo.write + 1) % U16M := rfl
    obtain ⟨hleg, hwf, hrf, hmf⟩ := ih (fifo_push h 0) hm2 hr2
      (hw2 ▸ Nat.mod_lt _ (by omega))
    have hstep : pushZerosOps (n + 1) = FifoOp.push 0 :: pushZerosOps n := by
      simp [pushZerosOps, List.replicate_succ]
    refine ⟨?_, ?_, hrf, hmf⟩
    · rw [hstep]
      simp [fifo_legal, hfull, hleg]
    · rw [hstep]
      simp only [fifo_run, fifo_step]
      rw [hwf, hw2, Nat.mod_add_mod]
      congr 1
      omega

/-- Storage slot 0 of the capacity-`2^16` fifo after `n` zero-pushes:
it is zeroed as soon as some push lands on write index `0 (mod 2^16)`,
otherwise untouched. -/
theorem pushZeros_buf0 (n : Nat) :
    ∀ h : FifoHandle, h.capacity_mask = U16M - 1 →
    (fifo_run h (pushZerosOps n)).fifo.buf 0 =
      if ∃ j, j < n ∧ (h.fifo.write + j) % U16M = 0 then 0 else h.fifo.buf 0 := by
  induction n with
  | zero =>
    intro h hm
    simp [pushZerosOps, fifo_run]
  | succ n ih =>
    intro h hm
    have hstep : fifo_run h (pushZerosOps (n + 1)) =
        fifo_run (fifo_push h 0) (pushZerosOps n) := by
      simp [pushZerosOps, List.replicate_succ, fifo_run, fifo_step]
    have hm2 : (fifo_push h 0).capacity_mask = U16M - 1 := by
      simp [fifo_push, hm]
    rw [hstep, ih (fifo_push h 0) hm2]
    have hb0 : (fifo_push h 0).fifo.buf 0 =
        if h.fifo.write % U16M = 0 then 0 else h.fifo.buf 0 := by
      simp only [fifo_push, hm, land_U16]
      by_cases hw0 : h.fifo.write % U16M = 0
      · rw [if_pos hw0.symm, if_pos hw0]
      · rw [if_neg (fun hh => hw0 hh.symm), if_neg hw0]
    have hw2 : (fifo_push h 0).fifo.write = (h.fifo.write + 1) % U16M := rfl
    rw [hb0]
    by_cases hw0 : h.fifo.write % U16M = 0
    · have hex : ∃ j, j < n + 1 ∧ (h.fifo.write + j) % U16M = 0 :=
        ⟨0, by omega, by simpa using hw0⟩
      rw [if_pos hex, if_pos hw0]
      split
      · rfl
      · rfl
    · have hshift : (∃ j, j < n ∧ ((fifo_push h 0).fifo.write + j) % U16M = 0) ↔
          (∃ j, j < n + 1 ∧ (h.fifo.write + j) % U16M = 0) := by
        rw [hw2]
        constructor
        · rintro ⟨j, hj, hj0⟩
          refine ⟨j + 1, by omega, ?_⟩
          rw [← hj0, Nat.mod_add_mod]
          congr 1
          omega
        · rintro ⟨j, hj, hj0⟩
          cases j with
          | zero => exact absurd (by simpa using hj0) hw0
          | succ j' =>
            refine ⟨j', by omega, ?_⟩
            rw [Nat.mod_add_mod]
            rw [← hj0]
            congr 1
            omega
      rw [if_neg hw0]
      simp only [hshift]

theorem fifo_inputs_pushZeros (n : Nat) :
    fifo_inputs (pushZerosOps n) = List.replicate n 0 := by
  induction n with
  | zero => rfl
  | succ n ih =>
    simp only [pushZerosOps, List.replicate_succ] at *
    simp [fifo_inputs, ih]

theorem fifo_outputs_pushZeros (n : Nat) (h : FifoHandle) :
    fifo_outputs h (pushZerosOps n) = [] := by
  induction n generalizing h with
  | zero => rfl
  | succ n ih =>
    simp only [pushZerosOps, List.replicate_succ] at *
    simp [fifo_outputs, ih]

theorem popCount_pushZeros (n : Nat) : popCount (pushZerosOps n) = 0 := by
  induction n with
  | zero => rfl
  | succ n ih =>
    simp only [pushZerosOps, List.replicate_succ] at *
    simp [popCount, ih]

/-- State evolution of the push-then-pop cycles on a capacity-16 fifo:
each cycle's push sees an equal-counter (not-full) state and each pop a
one-outstanding (not-empty) state, so the whole trace respects the
discipline while both `u16_t` counters advance by `n` mod `2^16`. -/
theorem cycles_state (n : Nat) :
    ∀ h : FifoHandle, h.capacity_mask = 15 → h.fifo.write = h.fifo.read →
    h.fifo.read < U16M →
    fifo_legal h (cyclesOps n) = true ∧
    (fifo_run h (cyclesOps n)).fifo.write = (h.fifo.read + n) % U16M ∧
    (fifo_run h (cyclesOps n)).fifo.read = (h.fifo.read + n) % U16M ∧
    (fifo_run h (cyclesOps n)).capacity_mask = 15 := by
  induction n with
  | zero =>
    intro h hm hwr hr
    refine ⟨rfl, ?_, ?_, hm⟩
    · show h.fifo.write = (h.fifo.read + 0) % U16M
      rw [Nat.add_zero, Nat.mod_eq_of_lt hr, hwr]
    · show h.fifo.read = (h.fifo.read + 0) % U16M
      rw [Nat.add_zero, Nat.mod_eq_of_lt hr]
  | succ n ih =>
    intro h hm hwr hr
    have hU : U16M = 65536 := rfl
    have hMS : U16M < SZM := by decide
    have hcap : fifo_capacity h = 16 := by
      unfold fifo_capacity
      rw [hm]
      decide
    have hused0 : fifo_used h = 0 := by
      rw [fifo_used_of_le h (hwr ▸ hr) (by omega), hwr]
      omega
    have hfull : fifo_full h = false := by
      simp [fifo_full, hcap, hused0]
    -- after the push: counters differ, so the fifo is not empty
    have hw1 : (fifo_push h 0).fifo.write = (h.fifo.read + 1) % U16M := by
      simp only [fifo_push, hwr]
    have hr1 : (fifo_push h 0).fifo.read = h.fifo.read := rfl
    have hm1 : (fifo_push h 0).capacity_mask = 15 := by simp [fifo_push, hm]
    have hne : (h.fifo.read + 1) % U16M ≠ h.fifo.read := by
      rcases Nat.lt_or_ge (h.fifo.read + 1) U16M with h1 | h1
      · rw [Nat.mod_eq_of_lt h1]
        omega
      · have he : h.fifo.read + 1 = U16M := by omega
        rw [he, Nat.mod_self]
        omega
    have hempty : fifo_empty (fifo_push h 0) = false := by
      have hz := fifo_used_eq_zero_iff (fifo_push h 0)
        (by rw [hw1]; exact Nat.mod_lt _ (by omega))
        (by rw [hr1]; exact hr)
      simp only [fifo_empty]
      rw [Bool.eq_false_iff]
      intro hcontra
      have : fifo_used (fifo_push h 0) = 0 := by simpa using hcontra
      exact hne (by rw [← hw1, ← hr1]; exact hz.mp this)
    -- after the pop: counters equal again at read + 1
    have hw2 : ((fifo_pop (fifo_push h 0)).2).fifo.write = (h.fifo.read + 1) % U16M := hw1
    have hr2 : ((fifo_pop (fifo_push h 0)).2).fifo.read = (h.fifo.read + 1) % U16M := by
      show ((fifo_push h 0).fifo.read + 1) % U16M = (h.fifo.read + 1) % U16M
      rw [hr1]
    have hm2 : ((fifo_pop (fifo_push h 0)).2).capacity_mask = 15 := hm1
    obtain ⟨hleg, hwf, hrf, hmf⟩ := ih ((fifo_pop (fifo_push h 0)).2) hm2
      (by rw [hw2, hr2]) (by rw [hr2]; exact Nat.mod_lt _ (by omega))
    have hstep : cyclesOps (n + 1) = FifoOp.push 0 :: FifoOp.pop :: cyclesOps n := rfl
    refine ⟨?_, ?_, ?_, hmf⟩
    · rw [hstep]
      simp [fifo_legal, hfull, hempty, hleg]
    · rw [hstep]
      simp only [fifo_run, fifo_step]
      rw [hwf, hr2, Nat.mod_add_mod]
      congr 1
      omega
    · rw [hstep]
      simp only [fifo_run, fifo_step]
      rw [hrf, hr2, Nat.mod_add_mod]
      congr 1
      omega

/-- Final push of `wrapTrace`, over an abstract state with both counters at
65535 and mask 15: the push is legal (the fifo is genuinely empty) and it
wraps the write counter to 0. -/
theorem push_at_65535 (A : FifoHandle) (hw : A.fifo.write = 65535)
    (hr : A.fifo.read = 65535) (hm : A.capacity_mask = 15) :
    fifo_legal A [FifoOp.push 7] = true ∧
    (fifo_push A 7).fifo.write = 0 ∧
    (fifo_push A 7).fifo.read = 65535 ∧
    (fifo_push A 7).capacity_mask = 15 := by
  have hcap : fifo_capacity A = 16 := by
    simp only [fifo_capacity, hm]
    decide
  have hused0 : fifo_used A = 0 := by
    simp only [fifo_used, hw, hr]
    decide
  have hfull : fifo_full A = false := by
    simp only [fifo_full, hcap, hused0]
    decide
  refine ⟨?_, ?_, ?_, ?_⟩
  · show (!fifo_full A && fifo_legal (fifo_push A 7) []) = true
    rw [hfull]
    rfl
  · show (A.fifo.write + 1) % U16M = 0
    rw [hw]
    decide
  · show A.fifo.read = 65535
    exact hr
  · show A.capacity_mask = 15
    exact hm

/-- The wrapped counter state reached by `wrapTrace` on an empty
capacity-16 fifo: the discipline is respected throughout, yet afterwards
`write = 0` while `read = 65535` (one byte outstanding). -/
theorem wrapTrace_state :
    fifo_legal (emptyFifo 15) wrapTrace = true ∧
    (fifo_run (emptyFifo 15) wrapTrace).fifo.write = 0 ∧
    (fifo_run (emptyFifo 15) wrapTrace).fifo.read = 65535 ∧
    (fifo_run (emptyFifo 15) wrapTrace).capacity_mask = 15 := by
  obtain ⟨hleg, hwf, hrf, hmf⟩ := cycles_state 65535 (emptyFifo 15) rfl rfl (by decide)
  have hw : (fifo_run (emptyFifo 15) (cyclesOps 65535)).fifo.write = 65535 := by
    rw [hwf]
    decide
  have hr : (fifo_run (emptyFifo 15) (cyclesOps 65535)).fifo.read = 65535 := by
    rw [hrf]
    decide
  obtain ⟨hleg2, hw2, hr2, hm2⟩ :=
    push_at_65535 (fifo_run (emptyFifo 15) (cyclesOps 65535)) hw hr hmf
  have hrun : fifo_run (emptyFifo 15) wrapTrace =
      fifo_push (fifo_run (emptyFifo 15) (cyclesOps 65535)) 7 := by
    show fifo_run (emptyFifo 15) (cyclesOps 65535 ++ [FifoOp.push 7]) = _
    rw [fifo_run_append]
    rfl
  refine ⟨?_, ?_, ?_, ?_⟩
  · show fifo_legal (emptyFifo 15) (cyclesOps 65535 ++ [FifoOp.push 7]) = true
    rw [fifo_legal_append, hleg, hleg2]
    rfl
  · rw [hrun]
    exact hw2
  · rw [hrun]
    exact hr2
  · rw [hrun]
    exact hm2

/-- C1. The claim says `fifo_used` is the wraparound difference modulo
`2^16`, always in `[0, capacity]` under the discipline, with
`write = 0, read = 65535` yielding `used = 1`. The code disagrees: the
`u16_t` operands are promoted to `int` before the subtraction and the
negative difference is converted to `size_t`, so on the
discipline-respecting trace `wrapTrace` (capacity 16) the state
`write = 0, read = 65535` is reached and `fifo_used` returns
`2^32 - 65535 = 4294901761`, far outside `[0, 16]` (and `fifo_full`
spuriously reports `true`). -/
theorem fifo_used_wraparound_bug :
    fifo_legal (emptyFifo 15) wrapTrace = true ∧
    (fifo_run (emptyFifo 15) wrapTrace).fifo.write = 0 ∧
    (fifo_run (emptyFifo 15) wrapTrace).fifo.read = 65535 ∧
    fifo_capacity (fifo_run (emptyFifo 15) wrapTrace) = 16 ∧
    fifo_used (fifo_run (emptyFifo 15) wrapTrace) = 4294901761 ∧
    fifo_full (fifo_run (emptyFifo 15) wrapTrace) = true := by
  obtain ⟨hleg, hw, hr, hm⟩ := wrapTrace_state
  have hcap : fifo_capacity (fifo_run (emptyFifo 15) wrapTrace) = 16 := by
    rw [fifo_capacity, hm]
    decide
  have hused : fifo_used (fifo_run (emptyFifo 15) wrapTrace) = 4294901761 := by
    rw [fifo_used, hw, hr]
    decide
  refine ⟨hleg, hw, hr, hcap, hused, ?_⟩
  rw [fifo_full, hcap, hused]
  decide

/-- C3 (amended). For every well-formed fifo state: `fifo_full` is true
iff `used ≥ capacity` (not iff `used = capacity`), `fifo_empty` is true
iff `used = 0`, both are false whenever `0 < used < capacity`, and they
are never simultaneously true when the capacity is positive. -/
theorem full_empty_flag_semantics (h : FifoHandle) (hwf : h.WF) :
    (fifo_full h = true ↔ fifo_capacity h ≤ fifo_used h) ∧
    (fifo_empty h = true ↔ fifo_used h = 0) ∧
    (0 < fifo_used h ∧ fifo_used h < fifo_capacity h →
      fifo_full h = false ∧ fifo_empty h = false) ∧
    (0 < fifo_capacity h → ¬ (fifo_full h = true ∧ fifo_empty h = true)) := by
  have h1 : fifo_full h = true ↔ fifo_capacity h ≤ fifo_used h := by
    simp [fifo_full]
  have h2 : fifo_empty h = true ↔ fifo_used h = 0 := by
    simp [fifo_empty]
  refine ⟨h1, h2, ?_, ?_⟩
  · rintro ⟨ha, hb⟩
    constructor
    · rw [Bool.eq_false_iff]
      intro hc
      have := h1.mp hc
      omega
    · rw [Bool.eq_false_iff]
      intro hc
      have := h2.mp hc
      omega
  · rintro hcap ⟨ha, hb⟩
    have := h1.mp ha
    have := h2.mp hb
    omega

/-- C3 witness: a half-filled capacity-16 fifo (write 1, read 0) is
neither full nor empty. -/
theorem full_empty_flag_semantics_witness :
    (⟨⟨1, 0, fun _ => 0⟩, 15⟩ : FifoHandle).WF ∧
    (fifo_full ⟨⟨1, 0, fun _ => 0⟩, 15⟩ = false ∧
     fifo_empty ⟨⟨1, 0, fun _ => 0⟩, 15⟩ = false) :=
  ⟨by decide,
   (full_empty_flag_semantics ⟨⟨1, 0, fun _ => 0⟩, 15⟩ (by decide)).2.2.1
     ⟨by decide, by decide⟩⟩

/-- C3 counterexample to the claim as stated: on the discipline-respecting
trace `wrapTrace` the capacity-16 fifo reports `fifo_full = true` although
`fifo_used ≠ fifo_capacity` (used is `2^32 - 65535`), refuting
`full ⇔ used = capacity`. -/
theorem full_neq_capacity_cex :
    fifo_legal (emptyFifo 15) wrapTrace = true ∧
    fifo_full (fifo_run (emptyFifo 15) wrapTrace) = true ∧
    fifo_used (fifo_run (emptyFifo 15) wrapTrace) ≠
      fifo_capacity (fifo_run (emptyFifo 15) wrapTrace) := by
  obtain ⟨hleg, hw, hr, hm⟩ := wrapTrace_state
  have hcap : fifo_capacity (fifo_run (emptyFifo 15) wrapTrace) = 16 := by
    rw [fifo_capacity, hm]
    decide
  have hused : fifo_used (fifo_run (emptyFifo 15) wrapTrace) = 4294901761 := by
    rw [fifo_used, hw, hr]
    decide
  refine ⟨hleg, ?_, ?_⟩
  · rw [fifo_full, hcap, hused]
    decide
  · rw [hused, hcap]
    decide

/-- C5. The `__ASSERT` guards of `fifo_push`/`fifo_pop`/`fifo_peek` are
fatal programming-error checks only: whenever the documented precondition
holds the assertion branch is unreachable and the operation returns its
normal result, and the assertion branch is taken exactly on a precondition
violation — the functions never propagate an error value to the caller. -/
theorem assert_guard_semantics (h : FifoHandle) (v : Nat) :
    (fifo_full h = false → fifo_push_checked h v = some (fifo_push h v)) ∧
    (fifo_empty h = false → fifo_pop_checked h = some (fifo_pop h)) ∧
    (fifo_empty h = false → fifo_peek_checked h = some (fifo_peek h)) ∧
    (fifo_push_checked h v = none ↔ fifo_full h = true) ∧
    (fifo_pop_checked h = none ↔ fifo_empty h = true) ∧
    (fifo_peek_checked h = none ↔ fifo_empty h = true) := by
  refine ⟨?_, ?_, ?_, ?_, ?_, ?_⟩
  · intro hx
    simp [fifo_push_checked, hx]
  · intro hx
    simp [fifo_pop_checked, hx]
  · intro hx
    simp [fifo_peek_checked, hx]
  · cases hf : fifo_full h <;> simp [fifo_push_checked, hf]
  · cases hf : fifo_empty h <;> simp [fifo_pop_checked, hf]
  · cases hf : fifo_empty h <;> simp [fifo_peek_checked, hf]

/-- C5 witness: on a capacity-8 fifo holding one byte, none of the three
assertion guards fires. -/
theorem assert_guard_semantics_witness :
    fifo_full ⟨⟨1, 0, fun _ => 0⟩, 7⟩ = false ∧
    fifo_empty ⟨⟨1, 0, fun _ => 0⟩, 7⟩ = false ∧
    fifo_push_checked ⟨⟨1, 0, fun _ => 0⟩, 7⟩ 9 =
      some (fifo_push ⟨⟨1, 0, fun _ => 0⟩, 7⟩ 9) ∧
    fifo_pop_checked ⟨⟨1, 0, fun _ => 0⟩, 7⟩ =
      some (fifo_pop ⟨⟨1, 0, fun _ => 0⟩, 7⟩) ∧
    fifo_peek_checked ⟨⟨1, 0, fun _ => 0⟩, 7⟩ =
      some (fifo_peek ⟨⟨1, 0, fun _ => 0⟩, 7⟩) :=
  ⟨by decide, by decide,
   (assert_guard_semantics ⟨⟨1, 0, fun _ => 0⟩, 7⟩ 9).1 (by decide),
   (assert_guard_semantics ⟨⟨1, 0, fun _ => 0⟩, 7⟩ 9).2.1 (by decide),
   (assert_guard_semantics ⟨⟨1, 0, fun _ => 0⟩, 7⟩ 9).2.2.1 (by decide)⟩

/-- C6. `fifo_push` mutates only the write index (one `u16_t` increment)
and the single storage byte at offset `old write AND capacity_mask`,
leaving the read index (and the mask) unchanged; `fifo_pop` mutates only
the read index, leaving the write index and the whole storage unchanged. -/
theorem push_pop_frame (h : FifoHandle) (v : Nat) :
    (fifo_full h = false →
      (fifo_push h v).fifo.read = h.fifo.read ∧
      (fifo_push h v).fifo.write = (h.fifo.write + 1) % U16M ∧
      (fifo_push h v).capacity_mask = h.capacity_mask ∧
      (fifo_push h v).fifo.buf (h.fifo.write &&& h.capacity_mask) = v % 256 ∧
      (∀ i, i ≠ h.fifo.write &&& h.capacity_mask →
        (fifo_push h v).fifo.buf i = h.fifo.buf i)) ∧
    (fifo_empty h = false →
      (fifo_pop h).2.fifo.write = h.fifo.write ∧
      (fifo_pop h).2.fifo.read = (h.fifo.read + 1) % U16M ∧
      (fifo_pop h).2.capacity_mask = h.capacity_mask ∧
      (∀ i, (fifo_pop h).2.fifo.buf i = h.fifo.buf i)) := by
  constructor
  · intro _
    refine ⟨rfl, rfl, rfl, ?_, ?_⟩
    · simp [fifo_push]
    · intro i hi
      simp [fifo_push, hi]
  · intro _
    exact ⟨rfl, rfl, rfl, fun i => rfl⟩

/-- C6 witness: concrete frame check on a capacity-8 fifo with one byte
buffered (write 1, read 0), pushing byte 9. -/
theorem push_pop_frame_witness :
    fifo_full ⟨⟨1, 0, fun _ => 3⟩, 7⟩ = false ∧
    fifo_empty ⟨⟨1, 0, fun _ => 3⟩, 7⟩ = false ∧
    (fifo_push ⟨⟨1, 0, fun _ => 3⟩, 7⟩ 9).fifo.read = 0 ∧
    (fifo_push ⟨⟨1, 0, fun _ => 3⟩, 7⟩ 9).fifo.buf (1 &&& 7) = 9 % 256 ∧
    (fifo_push ⟨⟨1, 0, fun _ => 3⟩, 7⟩ 9).fifo.buf 0 = 3 ∧
    (fifo_pop ⟨⟨1, 0, fun _ => 3⟩, 7⟩).2.fifo.write = 1 ∧
    (fifo_pop ⟨⟨1, 0, fun _ => 3⟩, 7⟩).2.fifo.buf 5 = 3 :=
  ⟨by decide, by decide,
   ((push_pop_frame ⟨⟨1, 0, fun _ => 3⟩, 7⟩ 9).1 (by decide)).1,
   ((push_pop_frame ⟨⟨1, 0, fun _ => 3⟩, 7⟩ 9).1 (by decide)).2.2.2.1,
   ((push_pop_frame ⟨⟨1, 0, fun _ => 3⟩, 7⟩ 9).1 (by decide)).2.2.2.2 0 (by decide),
   ((push_pop_frame ⟨⟨1, 0, fun _ => 3⟩, 7⟩ 9).2 (by decide)).1,
   ((push_pop_frame ⟨⟨1, 0, fun _ => 3⟩, 7⟩ 9).2 (by decide)).2.2.2 5⟩

/-- The freshly constructed fifo satisfies the abstraction invariant with
empty history. -/
theorem fifoInv_empty (k : Nat) : fifoInv k [] 0 (emptyFifo (2 ^ k - 1)) := by
  refine ⟨rfl, rfl, rfl, Nat.le_refl 0, by simp, ?_⟩
  intro i h0 hlt
  simp at hlt

/-- C2 (amended). For a power-of-two capacity strictly below `2^16`: along
every operation sequence from the empty fifo in which each push happens
only when `fifo_full` is false and each pop only when `fifo_empty` is
false, FIFO order holds — the n-th byte returned by `fifo_pop` equals the
n-th byte handed to `fifo_push`. -/
theorem fifo_order_preserved (k : Nat) (hk : k < 16) (ops : List FifoOp)
    (hleg : fifo_legal (emptyFifo (2 ^ k - 1)) ops = true)
    (hbytes : ∀ v ∈ fifo_inputs ops, v < 256)
    (n : Nat) (hn : n < popCount ops) :
    (fifo_outputs (emptyFifo (2 ^ k - 1)) ops).getD n 0 =
      (fifo_inputs ops).getD n 0 := by
  obtain ⟨hinvF, houts⟩ := fifoInv_run ops hk (fifoInv_empty k) hleg
  simp only [List.nil_append, Nat.zero_add] at hinvF houts
  rw [List.drop_zero] at houts
  have hqlen : popCount ops ≤ (fifo_inputs ops).length := hinvF.2.2.2.1
  have hnlen : n < (fifo_inputs ops).length := by omega
  rw [houts]
  have hmem : (fifo_inputs ops).getD n 0 ∈ fifo_inputs ops := by
    have hgd : (fifo_inputs ops).getD n 0 = (fifo_inputs ops).get ⟨n, hnlen⟩ := by
      simp [List.get_eq_getElem, List.getD_eq_getElem?_getD, List.getElem?_eq_getElem hnlen]
    rw [hgd]
    exact List.get_mem _ _ _
  have hb : (fifo_inputs ops).getD n 0 % 256 = (fifo_inputs ops).getD n 0 :=
    Nat.mod_eq_of_lt (hbytes _ hmem)
  have h1 : (((fifo_inputs ops).map (fun v => v % 256)).take (popCount ops)).getD n 0 =
      ((fifo_inputs ops).map (fun v => v % 256)).getD n 0 := by
    simp [List.getD_eq_getElem?_getD, List.getElem?_take_of_lt hn]
  have h2 : ((fifo_inputs ops).map (fun v => v % 256)).getD n 0 =
      (fifo_inputs ops).getD n 0 % 256 := by
    simp [List.getD_eq_getElem?_getD, List.getElem?_map, List.getElem?_eq_getElem hnlen]
  rw [h1, h2, hb]

/-- C2 witness: capacity 2, pushes of 7 and 9 followed by two pops — the
second pop returns the second pushed byte. -/
theorem fifo_order_preserved_witness :
    fifo_legal (emptyFifo (2 ^ 1 - 1))
      [FifoOp.push 7, FifoOp.push 9, FifoOp.pop, FifoOp.pop] = true ∧
    (fifo_outputs (emptyFifo (2 ^ 1 - 1))
      [FifoOp.push 7, FifoOp.push 9, FifoOp.pop, FifoOp.pop]).getD 1 0 =
      (fifo_inputs [FifoOp.push 7, FifoOp.push 9, FifoOp.pop, FifoOp.pop]).getD 1 0 :=
  ⟨by decide,
   fifo_order_preserved 1 (by decide) [FifoOp.push 7, FifoOp.push 9, FifoOp.pop, FifoOp.pop]
     (by decide) (by decide) 1 (by decide)⟩

/-- One-step unfolding equations used to reason about concrete traces
without forcing evaluation of long operation lists. -/
theorem fifo_legal_cons_push (h : FifoHandle) (v : Nat) (l : List FifoOp) :
    fifo_legal h (FifoOp.push v :: l) = (!fifo_full h && fifo_legal (fifo_push h v) l) := rfl

theorem fifo_legal_pop_single (h : FifoHandle) :
    fifo_legal h [FifoOp.pop] = !fifo_empty h := by
  simp [fifo_legal]

theorem fifo_inputs_cons_push (v : Nat) (l : List FifoOp) :
    fifo_inputs (FifoOp.push v :: l) = v :: fifo_inputs l := rfl

theorem fifo_outputs_cons_push (h : FifoHandle) (v : Nat) (l : List FifoOp) :
    fifo_outputs h (FifoOp.push v :: l) = fifo_outputs (fifo_push h v) l := rfl

theorem fifo_outputs_pop_single (h : FifoHandle) :
    fifo_outputs h [FifoOp.pop] = [(fifo_pop h).1] := rfl

theorem popCount_cons_push (v : Nat) (l : List FifoOp) :
    popCount (FifoOp.push v :: l) = popCount l := rfl

theorem overwriteTrace_eq :
    overwriteTrace = FifoOp.push 1 :: (pushZerosOps U16M ++ [FifoOp.pop]) := rfl

/-- C2 counterexample at capacity `2^16`: on `overwriteTrace` every push
is performed with `fifo_full` false and the single pop with `fifo_empty`
false, yet the 0-th popped byte is `0` while the 0-th pushed byte was `1`
(the 65537-th push silently overwrote slot 0). -/
theorem fifo_order_capacity_2pow16_cex :
    fifo_legal (emptyFifo (U16M - 1)) overwriteTrace = true ∧
    (∀ v ∈ fifo_inputs overwriteTrace, v < 256) ∧
    popCount overwriteTrace = 1 ∧
    (fifo_outputs (emptyFifo (U16M - 1)) overwriteTrace).getD 0 0 = 0 ∧
    (fifo_inputs overwriteTrace).getD 0 0 = 1 := by
  have hm1 : (fifo_push (emptyFifo (U16M - 1)) 1).capacity_mask = U16M - 1 := rfl
  have hr1 : (fifo_push (emptyFifo (U16M - 1)) 1).fifo.read = 0 := rfl
  have hw1 : (fifo_push (emptyFifo (U16M - 1)) 1).fifo.write = 1 := by decide
  obtain ⟨hlegZ, hwZ, hrZ, hmZ⟩ :=
    pushZeros_state U16M (fifo_push (emptyFifo (U16M - 1)) 1) hm1 hr1 (by rw [hw1]; decide)
  have hwZ1 : (fifo_run (fifo_push (emptyFifo (U16M - 1)) 1)
      (pushZerosOps U16M)).fifo.write = 1 := by
    rw [hwZ, hw1]
    decide
  have hempty : fifo_empty (fifo_run (fifo_push (emptyFifo (U16M - 1)) 1)
      (pushZerosOps U16M)) = false := by
    rw [fifo_empty, fifo_used, hwZ1, hrZ]
    decide
  have hinp : fifo_inputs (pushZerosOps U16M ++ [FifoOp.pop]) = List.replicate U16M 0 := by
    rw [fifo_inputs_append, fifo_inputs_pushZeros]
    have hpop : fifo_inputs [FifoOp.pop] = ([] : List Nat) := rfl
    rw [hpop, List.append_nil]
  refine ⟨?_, ?_, ?_, ?_, ?_⟩
  · rw [overwriteTrace_eq, fifo_legal_cons_push, fifo_legal_append, hlegZ,
      fifo_legal_pop_single, hempty]
    decide
  · rw [overwriteTrace_eq, fifo_inputs_cons_push, hinp]
    intro v hv
    rcases List.mem_cons.mp hv with hv1 | hv2
    · omega
    · have := List.eq_of_mem_replicate hv2
      omega
  · rw [overwriteTrace_eq, popCount_cons_push, popCount_append, popCount_pushZeros]
    rfl
  · rw [overwriteTrace_eq, fifo_outputs_cons_push, fifo_outputs_append,
      fifo_outputs_pushZeros, fifo_outputs_pop_single, List.nil_append]
    have hgd : ∀ x : Nat, ([x] : List Nat).getD 0 0 = x := fun x => rfl
    have hpop1 : ∀ h : FifoHandle,
        (fifo_pop h).1 = h.fifo.buf (h.fifo.read &&& h.capacity_mask) := fun h => rfl
    rw [hgd, hpop1, hrZ, hmZ, Nat.zero_and]
    rw [pushZeros_buf0 U16M (fifo_push (emptyFifo (U16M - 1)) 1) hm1]
    rw [if_pos ⟨65535, by decide, by rw [hw1]; decide⟩]
  · rw [overwriteTrace_eq, fifo_inputs_cons_push]
    rfl

/-- C4 (amended). For every power-of-two capacity `C = 2^k` with `k < 16`
and every list of `C` bytes: pushing them one by one from the empty fifo
respects the discipline (each push finds `fifo_full` false), afterwards
`fifo_full` is true, and a `(C+1)`-th push would violate the push
precondition. -/
theorem capacity_boundary (k : Nat) (hk : k < 16) (bs : List Nat)
    (hlen : bs.length = 2 ^ k) :
    fifo_legal (emptyFifo (2 ^ k - 1)) (bs.map FifoOp.push) = true ∧
    fifo_full (fifo_run (emptyFifo (2 ^ k - 1)) (bs.map FifoOp.push)) = true ∧
    (∀ b, fifo_legal (fifo_run (emptyFifo (2 ^ k - 1)) (bs.map FifoOp.push))
      [FifoOp.push b] = false) := by
  have hck : 2 ^ k < U16M := two_pow_lt_U16M hk
  have hMS : U16M < SZM := by decide
  have hpos : 0 < 2 ^ k := Nat.pos_pow_of_pos k (by norm_num)
  obtain ⟨hleg, hw, hr, hm⟩ := pushList_state k bs (emptyFifo (2 ^ k - 1)) hk rfl rfl
    (by simp [emptyFifo, hlen])
  have hw2 : (fifo_run (emptyFifo (2 ^ k - 1)) (bs.map FifoOp.push)).fifo.write = 2 ^ k := by
    rw [hw, hlen]
    simp [emptyFifo]
  have hcap : fifo_capacity (fifo_run (emptyFifo (2 ^ k - 1)) (bs.map FifoOp.push)) = 2 ^ k := by
    rw [fifo_capacity, hm]
    have he : 2 ^ k - 1 + 1 = 2 ^ k := by omega
    rw [he]
    exact Nat.mod_eq_of_lt (by omega)
  have hused : fifo_used (fifo_run (emptyFifo (2 ^ k - 1)) (bs.map FifoOp.push)) = 2 ^ k := by
    rw [fifo_used, hw2, hr, Nat.sub_zero, Nat.add_mod_left]
    exact Nat.mod_eq_of_lt (by omega)
  have hfull : fifo_full (fifo_run (emptyFifo (2 ^ k - 1)) (bs.map FifoOp.push)) = true := by
    rw [fifo_full, hcap, hused]
    simp
  refine ⟨hleg, hfull, ?_⟩
  intro b
  show (!fifo_full (fifo_run (emptyFifo (2 ^ k - 1)) (bs.map FifoOp.push)) &&
    fifo_legal (fifo_push (fifo_run (emptyFifo (2 ^ k - 1)) (bs.map FifoOp.push)) b) []) = false
  rw [hfull]
  rfl

/-- C4 witness: capacity 4, four pushes succeed and fill the fifo; a fifth
push is rejected by the discipline. -/
theorem capacity_boundary_witness :
    fifo_legal (emptyFifo (2 ^ 2 - 1)) ([10, 20, 30, 40].map FifoOp.push) = true ∧
    fifo_full (fifo_run (emptyFifo (2 ^ 2 - 1)) ([10, 20, 30, 40].map FifoOp.push)) = true ∧
    fifo_legal (fifo_run (emptyFifo (2 ^ 2 - 1)) ([10, 20, 30, 40].map FifoOp.push))
      [FifoOp.push 50] = false := by
  obtain ⟨h1, h2, h3⟩ := capacity_boundary 2 (by decide) [10, 20, 30, 40] (by decide)
  exact ⟨h1, h2, h3 50⟩

/-- C4 counterexample at capacity `2^16`: all 65536 pushes find
`fifo_full` false (so they are accepted), but after the 65536-th push
`fifo_full` is still false — the claim's "after the C-th push fifo_full
is true" fails, and a 65537-th push would not violate the precondition. -/
theorem capacity_boundary_2pow16_cex :
    fifo_legal (emptyFifo (U16M - 1)) (pushZerosOps U16M) = true ∧
    fifo_full (fifo_run (emptyFifo (U16M - 1)) (pushZerosOps U16M)) = false := by
  obtain ⟨hleg, hw, hr, hm⟩ := pushZeros_state U16M (emptyFifo (U16M - 1)) rfl rfl (by decide)
  have hw2 : (fifo_run (emptyFifo (U16M - 1)) (pushZerosOps U16M)).fifo.write = 0 := by
    rw [hw]
    decide
  have hcap : fifo_capacity (fifo_run (emptyFifo (U16M - 1)) (pushZerosOps U16M)) = 65536 := by
    rw [fifo_capacity, hm]
    decide
  have hused : fifo_used (fifo_run (emptyFifo (U16M - 1)) (pushZerosOps U16M)) = 0 := by
    rw [fifo_used, hw2, hr]
    decide
  refine ⟨hleg, ?_⟩
  rw [fifo_full, hcap, hused]
  decide

/-- C7. `fifo_peek` returns exactly the byte an immediately following
`fifo_pop` would return, performs no store (its explicit-state form leaves
the state unchanged, and a pop leaves storage and write index unchanged),
and on every discipline-respecting run (capacity `2^k`, `k < 16`, byte
inputs) of a non-empty fifo it returns the oldest outstanding byte: the
`popCount`-th pushed byte. -/
theorem peek_contract :
    (∀ h : FifoHandle, fifo_empty h = false →
      fifo_peek h = (fifo_pop h).1 ∧
      (fifo_peek_st h).2 = h ∧
      (fifo_pop h).2.fifo.write = h.fifo.write ∧
      (∀ i, (fifo_pop h).2.fifo.buf i = h.fifo.buf i)) ∧
    (∀ (k : Nat) (ops : List FifoOp), k < 16 →
      fifo_legal (emptyFifo (2 ^ k - 1)) ops = true →
      (∀ v ∈ fifo_inputs ops, v < 256) →
      fifo_empty (fifo_run (emptyFifo (2 ^ k - 1)) ops) = false →
      fifo_peek (fifo_run (emptyFifo (2 ^ k - 1)) ops) =
        (fifo_inputs ops).getD (popCount ops) 0) := by
  constructor
  · intro h _
    exact ⟨rfl, rfl, rfl, fun i => rfl⟩
  · intro k ops hk hleg hbytes hne
    obtain ⟨hinvF, _⟩ := fifoInv_run ops hk (fifoInv_empty k) hleg
    simp only [List.nil_append, Nat.zero_add] at hinvF
    have hq : popCount ops < (fifo_inputs ops).length :=
      (fifo_empty_false_iff hk hinvF).mp hne
    have hval := (fifoInv_pop hk hinvF hne).1
    have hpeek : fifo_peek (fifo_run (emptyFifo (2 ^ k - 1)) ops) =
        (fifo_pop (fifo_run (emptyFifo (2 ^ k - 1)) ops)).1 := rfl
    rw [hpeek, hval]
    have hmem : (fifo_inputs ops).getD (popCount ops) 0 ∈ fifo_inputs ops := by
      have hgd : (fifo_inputs ops).getD (popCount ops) 0 =
          (fifo_inputs ops).get ⟨popCount ops, hq⟩ := by
        simp [List.get_eq_getElem, List.getD_eq_getElem?_getD, List.getElem?_eq_getElem hq]
      rw [hgd]
      exact List.get_mem _ _ _
    exact Nat.mod_eq_of_lt (hbytes _ hmem)

/-- C7 witness: after pushing byte 3 into a capacity-2 fifo, the fifo is
non-empty, peek returns 3 (the oldest pushed byte), and equals the value
pop returns. -/
theorem peek_contract_witness :
    fifo_empty (fifo_run (emptyFifo (2 ^ 1 - 1)) [FifoOp.push 3]) = false ∧
    fifo_peek (fifo_run (emptyFifo (2 ^ 1 - 1)) [FifoOp.push 3]) =
      (fifo_inputs [FifoOp.push 3]).getD (popCount [FifoOp.push 3]) 0 ∧
    fifo_peek (fifo_run (emptyFifo (2 ^ 1 - 1)) [FifoOp.push 3]) =
      (fifo_pop (fifo_run (emptyFifo (2 ^ 1 - 1)) [FifoOp.push 3])).1 :=
  ⟨by decide,
   peek_contract.2 1 [FifoOp.push 3] (by decide) (by decide) (by decide) (by decide),
   (peek_contract.1 (fifo_run (emptyFifo (2 ^ 1 - 1)) [FifoOp.push 3]) (by decide)).1⟩

/-- C8. `FIFO_DEFINE` with size 5 fails the build-time power-of-two
assertion, and for every accepted positive size `S` (representable in
`size_t`) the constructed handle has `capacity_mask = S - 1` and
`fifo_capacity` returns exactly `S`. -/
theorem fifo_define_capacity (S : Nat) (hS0 : 0 < S) (hSlt : S < SZM)
    (hok : fifo_size_ok S = true) :
    fifo_size_ok 5 = false ∧
    (handleOf S).capacity_mask = S - 1 ∧
    fifo_capacity (handleOf S) = S := by
  have hmask : capacity_mask_of S = S - 1 := by
    unfold capacity_mask_of
    have he : S + SZM - 1 = SZM + (S - 1) := by omega
    rw [he, Nat.add_mod_left]
    exact Nat.mod_eq_of_lt (by omega)
  refine ⟨by decide, hmask, ?_⟩
  show (capacity_mask_of S + 1) % SZM = S
  rw [hmask]
  have he : S - 1 + 1 = S := by omega
  rw [he]
  exact Nat.mod_eq_of_lt hSlt

/-- C8 witness: size 8 is accepted, mask is 7, capacity is 8. -/
theorem fifo_define_capacity_witness :
    fifo_size_ok 8 = true ∧
    (handleOf 8).capacity_mask = 7 ∧
    fifo_capacity (handleOf 8) = 8 :=
  ⟨by decide,
   (fifo_define_capacity 8 (by decide) (by decide) (by decide)).2.1,
   (fifo_define_capacity 8 (by decide) (by decide) (by decide)).2.2⟩

/-- C9. `((size) & ((size)-1)) == 0` is satisfied by `size = 0` (with
`(0)-1` the all-ones pattern), so a zero-capacity fifo passes the
build-time check; its `capacity_mask` is `SIZE_MAX = 2^32 - 1` and
`fifo_capacity` returns `capacity_mask + 1 = 0` (mod `2^32`). -/
theorem zero_size_accepted :
    fifo_size_ok 0 = true ∧
    (handleOf 0).capacity_mask = SZM - 1 ∧
    fifo_capacity (handleOf 0) = 0 := by
  refine ⟨by decide, by decide, by decide⟩

/-- C10 (amended). For every fifo handle whose capacity is non-zero
(`capacity_mask + 1 < 2^32`), masking any index — in particular the write
index used by `fifo_push` and the read index used by `fifo_peek`/`fifo_pop`
— yields an offset strictly below `fifo_capacity`, so storage indexing
stays in bounds for all states, preconditions violated or not. For the
zero-size fifo accepted by `FIFO_DEFINE` (mask all-ones, capacity 0) this
fails. -/
theorem mask_offset_bounds (h : FifoHandle) (idx : Nat)
    (hmask : h.capacity_mask + 1 < SZM) :
    idx &&& h.capacity_mask < fifo_capacity h ∧
    h.fifo.write &&& h.capacity_mask < fifo_capacity h ∧
    h.fifo.read &&& h.capacity_mask < fifo_capacity h := by
  have hcap : fifo_capacity h = h.capacity_mask + 1 := by
    unfold fifo_capacity
    exact Nat.mod_eq_of_lt hmask
  rw [hcap]
  exact ⟨Nat.lt_succ_of_le Nat.and_le_right, Nat.lt_succ_of_le Nat.and_le_right,
    Nat.lt_succ_of_le Nat.and_le_right⟩

/-- C10 witness: capacity-8 handle, arbitrary 16-bit index 60000 — the
masked offset is below the capacity. -/
theorem mask_offset_bounds_witness :
    (handleOf 8).capacity_mask + 1 < SZM ∧
    60000 &&& (handleOf 8).capacity_mask < fifo_capacity (handleOf 8) :=
  ⟨by decide, (mask_offset_bounds (handleOf 8) 60000 (by decide)).1⟩

/-- C10 counterexample to the unrestricted claim: for the zero-size fifo
accepted by `FIFO_DEFINE` the read offset (even index 0) is not below the
capacity, which is 0 — the indexing bound fails. -/
theorem mask_offset_zero_capacity_cex :
    ¬ ((handleOf 0).fifo.read &&& (handleOf 0).capacity_mask <
      fifo_capacity (handleOf 0)) := by
  decide
